import Mathlib

/-!
Verification of the Iterator-pattern code in `behavioral_patterns/Iterator.py`
and `test_iterator.py`: a shallow embedding of the container, the two concrete
iterator classes, the calendar generator, and proofs about their traversal
behaviour.
-/

/-- Embedding of Python list subscription `l[i]` for an `int` index `i`:
a negative index is first shifted by `len(l)`; the lookup succeeds exactly
when the shifted index lies in `[0, len(l))`, otherwise `IndexError`
(modelled as `none`). -/
def pyGet {α : Type} (l : List α) (i : Int) : Option α :=
  if i < 0 then
    if 0 ≤ i + l.length then l.get? (i + l.length).toNat else none
  else l.get? i.toNat

/-- Embedding of class `AlphabeticalOrderIterator` from
`behavioral_patterns/Iterator.py`: fields `_collection`, `_reverse`,
`_position`.  The position is a Python `int`, hence `Int` (reverse traversal
stores negative positions). -/
structure AlphabeticalOrderIterator (α : Type) where
  collection : List α
  reverse : Bool
  position : Int
deriving DecidableEq

/-- Embedding of `AlphabeticalOrderIterator.__init__`:
`self._position = -1 if reverse else 0`. -/
def AlphabeticalOrderIterator.init {α : Type} (collection : List α)
    (reverse : Bool) : AlphabeticalOrderIterator α :=
  ⟨collection, reverse, if reverse then -1 else 0⟩

/-- Embedding of `AlphabeticalOrderIterator.__next__`:
`value = self._collection[self._position]`, then
`self._position += -1 if self._reverse else 1`; on `IndexError` the
increment is not executed and `StopIteration` (modelled as `none`) is
raised.  Returns the yielded value together with the updated iterator
state. -/
def AlphabeticalOrderIterator.next {α : Type} (s : AlphabeticalOrderIterator α) :
    Option α × AlphabeticalOrderIterator α :=
  match pyGet s.collection s.position with
  | some value =>
      (some value,
        ⟨s.collection, s.reverse, s.position + if s.reverse then -1 else 1⟩)
  | none => (none, s)

/-- Embedding of `WordsCollection.__iter__`: returns
`AlphabeticalOrderIterator(self._collection)` (forward). -/
def wordsCollection_iter {α : Type} (collection : List α) :
    AlphabeticalOrderIterator α :=
  AlphabeticalOrderIterator.init collection false

/-- Embedding of `WordsCollection.get_reverse_iterator`: returns
`AlphabeticalOrderIterator(self._collection, True)`. -/
def wordsCollection_get_reverse_iterator {α : Type} (collection : List α) :
    AlphabeticalOrderIterator α :=
  AlphabeticalOrderIterator.init collection true

/-- Embedding of `WordsCollection.add_item` / `CollectionCalendarDays.add_item`:
`self._collection.append(item)`, acting on the backing list value. -/
def add_item {α : Type} (collection : List α) (item : α) : List α :=
  collection ++ [item]

/-- Embedding of `CollectionCalendarDays.add_items`:
`self._collection.extend(items)`. -/
def add_items {α : Type} (collection : List α) (items : List α) : List α :=
  collection ++ items

/-- Embedding of class `CalendarIterator` from `test_iterator.py`:
fields `_collection` and `_position` (forward only). -/
structure CalendarIterator (α : Type) where
  collection : List α
  position : Int
deriving DecidableEq

/-- Embedding of `CalendarIterator.__init__`: `self._position = 0`. -/
def CalendarIterator.init {α : Type} (collection : List α) :
    CalendarIterator α :=
  ⟨collection, 0⟩

/-- Embedding of `CalendarIterator.__next__`: identical to the forward case
of `AlphabeticalOrderIterator.__next__`. -/
def CalendarIterator.next {α : Type} (s : CalendarIterator α) :
    Option α × CalendarIterator α :=
  match pyGet s.collection s.position with
  | some value => (some value, ⟨s.collection, s.position + 1⟩)
  | none => (none, s)

/-- Trace harness: the results of `n` successive `next()` calls on an
`AlphabeticalOrderIterator`, each `some` element or `none` for
`StopIteration`. -/
def runNexts {α : Type} (s : AlphabeticalOrderIterator α) : Nat → List (Option α)
  | 0 => []
  | n + 1 => (s.next).1 :: runNexts (s.next).2 n

/-- Trace harness for `CalendarIterator`. -/
def calRunNexts {α : Type} (s : CalendarIterator α) : Nat → List (Option α)
  | 0 => []
  | n + 1 => (s.next).1 :: calRunNexts (s.next).2 n

/-- Interleaved execution of two iterators over a schedule: `true` means
"call `next()` on the first cursor", `false` on the second.  Returns the
per-cursor result sequences. -/
def runPair {α : Type} (s1 s2 : AlphabeticalOrderIterator α) :
    List Bool → List (Option α) × List (Option α)
  | [] => ([], [])
  | true :: sched =>
      let p := runPair (s1.next).2 s2 sched
      ((s1.next).1 :: p.1, p.2)
  | false :: sched =>
      let p := runPair s1 (s2.next).2 sched
      (p.1, (s2.next).1 :: p.2)

/-! ### Reference semantics for the mutable default argument

`WordsCollection.__init__(self, collection: List[Any] = [])` evaluates the
default expression `[]` once, at function-definition time; every call that
omits the argument binds `self._collection` to that one shared list object.
We model list objects in a store addressed by `Nat` references. -/

/-- A store of Python list objects: an allocation counter and the list value
held at each reference. -/
structure Store (α : Type) where
  nextRef : Nat
  mem : Nat → List α

/-- Allocate a fresh list object holding `l`; returns its reference. -/
def Store.alloc {α : Type} (st : Store α) (l : List α) : Nat × Store α :=
  (st.nextRef,
    ⟨st.nextRef + 1, fun r => if r = st.nextRef then l else st.mem r⟩)

/-- Read the list object at reference `r`. -/
def Store.read {α : Type} (st : Store α) (r : Nat) : List α :=
  st.mem r

/-- Overwrite the list object at reference `r` (in-place mutation). -/
def Store.write {α : Type} (st : Store α) (r : Nat) (l : List α) : Store α :=
  ⟨st.nextRef, fun i => if i = r then l else st.mem i⟩

/-- A `WordsCollection` object under reference semantics: its `_collection`
field is a reference to a list object. -/
structure WordsCollectionRef where
  ref : Nat
deriving DecidableEq

/-- Embedding of `WordsCollection.__init__` called with the argument
omitted: `self._collection` is bound to the already-existing default list
object `defaultRef`; no new list is allocated. -/
def wordsCollection_init_default (defaultRef : Nat) : WordsCollectionRef :=
  ⟨defaultRef⟩

/-- Embedding of `WordsCollection.add_item` under reference semantics:
`self._collection.append(item)` mutates the referenced list object in
place. -/
def WordsCollectionRef.add_item {α : Type} (st : Store α)
    (c : WordsCollectionRef) (item : α) : Store α :=
  st.write c.ref (st.read c.ref ++ [item])

/-! ### The calendar generator of `test_iterator.py`

`calendar_generator_datetime(start, end)` loops
`while start <= end: yield start.strftime('%d %B'); start += timedelta(days=1)`.
We embed `datetime.date` as a year/month/day record with the proleptic
Gregorian successor and lexicographic comparison, and the generator as the
finite list of its yields. -/

/-- Gregorian leap-year test (as in Python's `datetime`/`calendar`). -/
def isLeap (y : Nat) : Bool :=
  (y % 4 == 0 && y % 100 != 0) || y % 400 == 0

/-- Month lengths, parametrised by the leap flag; `0` for an out-of-range
month number. -/
def daysInMonthB (leap : Bool) : Nat → Nat
  | 1 => 31
  | 2 => if leap then 29 else 28
  | 3 => 31
  | 4 => 30
  | 5 => 31
  | 6 => 30
  | 7 => 31
  | 8 => 31
  | 9 => 30
  | 10 => 31
  | 11 => 30
  | 12 => 31
  | _ => 0

/-- Number of days in month `m` of year `y`. -/
def daysInMonth (y m : Nat) : Nat :=
  daysInMonthB (isLeap y) m

/-- Days of a year with leap flag `b` that lie strictly before month `m`
(months `1 ≤ i < m`; `daysInMonthB b 0 = 0` makes the recursion uniform). -/
def daysBeforeMonthB (b : Bool) : Nat → Nat
  | 0 => 0
  | m + 1 => daysBeforeMonthB b m + daysInMonthB b m

/-- Days of year `y` that lie strictly before month `m`. -/
def daysBeforeMonth (y m : Nat) : Nat :=
  daysBeforeMonthB (isLeap y) m

/-- Number of days in year `y`. -/
def daysInYear (y : Nat) : Nat :=
  if isLeap y then 366 else 365

/-- Days lying strictly before year `y` (counting from year `0`; only
differences of `toOrd` values matter below, so the choice of epoch is
irrelevant). -/
def daysBeforeYear : Nat → Nat
  | 0 => 0
  | y + 1 => daysBeforeYear y + daysInYear y

/-- Embedding of `datetime.date`. -/
structure PyDate where
  year : Nat
  month : Nat
  day : Nat
deriving DecidableEq

/-- A calendar date as Python's `date` constructor admits it. -/
def ValidDate (d : PyDate) : Prop :=
  1 ≤ d.year ∧ 1 ≤ d.month ∧ d.month ≤ 12 ∧ 1 ≤ d.day ∧
    d.day ≤ daysInMonth d.year d.month

instance (d : PyDate) : Decidable (ValidDate d) := by
  unfold ValidDate; exact inferInstance

/-- Embedding of Python date comparison `start <= end`: dates compare
lexicographically by (year, month, day). -/
def dateLe (a b : PyDate) : Prop :=
  a.year < b.year ∨
    (a.year = b.year ∧
      (a.month < b.month ∨ (a.month = b.month ∧ a.day ≤ b.day)))

instance (a b : PyDate) : Decidable (dateLe a b) := by
  unfold dateLe; exact inferInstance

/-- Embedding of `start + timedelta(days=1)` on calendar dates. -/
def nextDate (d : PyDate) : PyDate :=
  if d.day < daysInMonth d.year d.month then ⟨d.year, d.month, d.day + 1⟩
  else if d.month < 12 then ⟨d.year, d.month + 1, 1⟩
  else ⟨d.year + 1, 1, 1⟩

/-- Absolute day index of a date (days before its year, plus days of its
year before its month, plus the day of month). -/
def PyDate.toOrd (d : PyDate) : Nat :=
  daysBeforeYear d.year + daysBeforeMonth d.year d.month + d.day

/-- English month name, as `strftime('%B')` produces in the C locale. -/
def monthName : Nat → String
  | 1 => "January"
  | 2 => "February"
  | 3 => "March"
  | 4 => "April"
  | 5 => "May"
  | 6 => "June"
  | 7 => "July"
  | 8 => "August"
  | 9 => "September"
  | 10 => "October"
  | 11 => "November"
  | 12 => "December"
  | _ => ""

/-- Embedding of `d.strftime('%d %B')`: zero-padded two-digit day of month,
a space, and the full month name. -/
def strftime_d_B (d : PyDate) : String :=
  (if d.day < 10 then "0" ++ toString d.day else toString d.day) ++ " " ++
    monthName d.month

/-- Every month length is at most 31. -/
theorem daysInMonthB_le (b : Bool) (m : Nat) : daysInMonthB b m ≤ 31 := by
  unfold daysInMonthB
  cases b <;> (split <;> simp)

/-- From `dateLe s e` the years compare. -/
theorem dateLe.year_le {a b : PyDate} (h : dateLe a b) : a.year ≤ b.year := by
  rcases h with h | ⟨h, _⟩ <;> omega

/-- Embedding of `calendar_generator_datetime` from `test_iterator.py`: the
list of values yielded by the generator. -/
def calendar_generator_datetime (s e : PyDate) : List String :=
  if h : dateLe s e then
    strftime_d_B s :: calendar_generator_datetime (nextDate s) e
  else []
termination_by (e.year + 1 - s.year) * 1000 + (13 - s.month) * 40 + (31 - s.day)
decreasing_by
  have h31 := daysInMonthB_le (isLeap s.year) s.month
  have hy := h.year_le
  unfold nextDate
  split
  · simp only []
    have : daysInMonth s.year s.month = daysInMonthB (isLeap s.year) s.month := rfl
    omega
  · split <;> (simp only []; omega)

/-! ### Helper lemmas about the iterators -/

/-- The value returned by `__next__` is exactly the subscription result. -/
theorem next_fst {α : Type} (s : AlphabeticalOrderIterator α) :
    (s.next).1 = pyGet s.collection s.position := by
  unfold AlphabeticalOrderIterator.next
  rcases pyGet s.collection s.position <;> rfl

/-- A `__next__` call that raises `StopIteration` leaves the iterator state
unchanged (the position increment is skipped by the exception). -/
theorem next_snd_of_none {α : Type} {s : AlphabeticalOrderIterator α}
    (h : (s.next).1 = none) : (s.next).2 = s := by
  unfold AlphabeticalOrderIterator.next at h ⊢
  rcases hg : pyGet s.collection s.position with _ | v
  · simp [hg]
  · simp [hg] at h

/-- `__next__` never touches the backing collection or the direction flag. -/
theorem next_preserves {α : Type} (s : AlphabeticalOrderIterator α) :
    (s.next).2.collection = s.collection ∧ (s.next).2.reverse = s.reverse := by
  unfold AlphabeticalOrderIterator.next
  rcases pyGet s.collection s.position <;> exact ⟨rfl, rfl⟩

/-- Once the subscription at the current position fails, every later call
returns `none` (and, by `next_snd_of_none`, the state never changes). -/
theorem runNexts_exhausted {α : Type} {s : AlphabeticalOrderIterator α}
    (h : pyGet s.collection s.position = none) :
    ∀ k, runNexts s k = List.replicate k none := by
  intro k
  induction k with
  | zero => rfl
  | succ n ih =>
      have h1 : (s.next).1 = none := by rw [next_fst]; exact h
      have h2 : (s.next).2 = s := next_snd_of_none h1
      rw [runNexts, h1, h2, ih, List.replicate_succ]

/-- Subscription at a nonnegative in-range position. -/
theorem pyGet_ofNat {α : Type} (l : List α) (j : Nat) :
    pyGet l (j : Int) = l.get? j := by
  unfold pyGet
  rw [if_neg (by omega)]
  simp

/-- Forward traversal from position `j`: the iterator yields the suffix
`l.drop j` element by element, then `none` forever. -/
theorem runNexts_forward {α : Type} (t : List α) :
    ∀ (l : List α) (j : Nat) (k : Nat), l.drop j = t →
      runNexts ⟨l, false, (j : Int)⟩ (t.length + k) =
        t.map some ++ List.replicate k none := by
  induction t with
  | nil =>
      intro l j k hdrop
      have hlen : l.length ≤ j := List.drop_eq_nil_iff.mp hdrop
      have : pyGet l (j : Int) = none := by
        rw [pyGet_ofNat]; exact List.get?_eq_none.mpr hlen
      simpa using runNexts_exhausted this k
  | cons x t ih =>
      intro l j k hdrop
      have hget : l.get? j = some x := by
        have h0 := List.get?_drop l j 0
        rw [hdrop] at h0
        simpa using h0.symm
      have hdrop1 : l.drop (j + 1) = t := by
        have := List.drop_drop 1 j l
        rw [hdrop] at this
        simpa using this.symm
      have hpy : pyGet l (j : Int) = some x := by rw [pyGet_ofNat]; exact hget
      have hnext : (AlphabeticalOrderIterator.next ⟨l, false, (j : Int)⟩) =
          (some x, ⟨l, false, ((j + 1 : Nat) : Int)⟩) := by
        unfold AlphabeticalOrderIterator.next
        simp only [hpy]
        norm_num
      show runNexts ⟨l, false, (j : Int)⟩ ((t.length + 1) + k) = _
      have harith : (t.length + 1) + k = (t.length + k) + 1 := by omega
      rw [harith, runNexts, hnext]
      simp only []
      rw [ih l (j + 1) k hdrop1]
      simp

/-- Reverse traversal with `m` elements left: from position
`-(l.length - m) - 1` the iterator yields `(l.take m).reverse` element by
element, then `none` forever. -/
theorem runNexts_reverse {α : Type} :
    ∀ (m : Nat) (l : List α) (k : Nat), m ≤ l.length →
      runNexts ⟨l, true, -((l.length - m : Nat) : Int) - 1⟩ (m + k) =
        (l.take m).reverse.map some ++ List.replicate k none := by
  intro m
  induction m with
  | zero =>
      intro l k _
      have hpy : pyGet l (-((l.length - 0 : Nat) : Int) - 1) = none := by
        unfold pyGet
        rw [if_pos (by omega), if_neg (by omega)]
      simpa using runNexts_exhausted hpy k
  | succ m ih =>
      intro l k hm
      have hmlt : m < l.length := hm
      obtain ⟨x, hx⟩ : ∃ x, l.get? m = some x :=
        ⟨l.get ⟨m, hmlt⟩, List.get?_eq_get hmlt⟩
      have hpos : (-((l.length - (m + 1) : Nat) : Int) - 1) < 0 := by omega
      have hshift : (-((l.length - (m + 1) : Nat) : Int) - 1) + l.length =
          (m : Int) := by omega
      have hpy : pyGet l (-((l.length - (m + 1) : Nat) : Int) - 1) = some x := by
        unfold pyGet
        rw [if_pos hpos, if_pos (by omega), hshift]
        have htn : ((m : Int)).toNat = m := by omega
        rw [htn, hx]
      have hnext : (AlphabeticalOrderIterator.next
            ⟨l, true, -((l.length - (m + 1) : Nat) : Int) - 1⟩) =
          (some x, ⟨l, true, -((l.length - m : Nat) : Int) - 1⟩) := by
        unfold AlphabeticalOrderIterator.next
        simp only [hpy]
        have : (-((l.length - (m + 1) : Nat) : Int) - 1) + -1 =
            -((l.length - m : Nat) : Int) - 1 := by omega
        simp [this]
      have harith : (m + 1) + k = (m + k) + 1 := by omega
      rw [harith, runNexts, hnext]
      simp only []
      rw [ih l k (by omega)]
      have htake : l.take (m + 1) = l.take m ++ [x] := by
        rw [List.take_succ]
        have : l[m]? = some x := by
          rw [← List.get?_eq_getElem?]; exact hx
        rw [this]
        rfl
      rw [htake]
      simp

/-- `CalendarIterator.__next__` behaves exactly like the forward case of
`AlphabeticalOrderIterator.__next__`: the two traces coincide. -/
theorem calRunNexts_eq_runNexts {α : Type} :
    ∀ (n : Nat) (l : List α) (p : Int),
      calRunNexts ⟨l, p⟩ n = runNexts ⟨l, false, p⟩ n := by
  intro n
  induction n with
  | zero => intro l p; rfl
  | succ n ih =>
      intro l p
      rw [calRunNexts, runNexts]
      unfold CalendarIterator.next AlphabeticalOrderIterator.next
      rcases hg : pyGet l p with _ | v
      · simp only [hg]
        rw [ih]
      · simp only [hg]
        rw [ih]
        norm_num

/-- Populating a container by successive `add_item` calls appends the items
in order. -/
theorem foldl_add_item {α : Type} :
    ∀ (items acc : List α), List.foldl add_item acc items = acc ++ items := by
  intro items
  induction items with
  | nil => intro acc; simp
  | cons x items ih =>
      intro acc
      rw [List.foldl_cons, ih]
      simp [add_item]

/-- Interleaving two iterators is observationally the same as running each
alone: the first cursor's results depend only on how many times it was
scheduled, and likewise for the second. -/
theorem runPair_eq_runNexts {α : Type} :
    ∀ (sched : List Bool) (s1 s2 : AlphabeticalOrderIterator α),
      (runPair s1 s2 sched).1 = runNexts s1 (sched.count true) ∧
      (runPair s1 s2 sched).2 = runNexts s2 (sched.count false) := by
  intro sched
  induction sched with
  | nil => intro s1 s2; exact ⟨rfl, rfl⟩
  | cons b sched ih =>
      intro s1 s2
      cases b
      · have hc : (false :: sched).count true = sched.count true := by
          simp [List.count_cons]
        have hc2 : (false :: sched).count false = sched.count false + 1 := by
          simp [List.count_cons]
        rw [runPair, hc, hc2]
        exact ⟨(ih s1 (s2.next).2).1,
          by rw [runNexts]; exact congrArg _ (ih s1 (s2.next).2).2⟩
      · have hc : (true :: sched).count true = sched.count true + 1 := by
          simp [List.count_cons]
        have hc2 : (true :: sched).count false = sched.count false := by
          simp [List.count_cons]
        rw [runPair, hc, hc2]
        exact ⟨by rw [runNexts]; exact congrArg _ (ih (s1.next).2 s2).1,
          (ih (s1.next).2 s2).2⟩

/-! ### Calendar arithmetic lemmas -/

/-- The twelve months of a year sum to the year's length. -/
theorem daysBeforeMonthB_thirteen (b : Bool) :
    daysBeforeMonthB b 13 = (if b then 366 else 365) := by
  cases b <;> decide

/-- Months before `m` are monotone in `m`. -/
theorem daysBeforeMonthB_mono (b : Bool) :
    ∀ {m m' : Nat}, m ≤ m' → daysBeforeMonthB b m ≤ daysBeforeMonthB b m' := by
  intro m m' h
  induction m' with
  | zero => rw [Nat.le_zero.mp h]
  | succ n ih =>
      rcases Nat.lt_or_ge m (n + 1) with hlt | hge
      · calc daysBeforeMonthB b m ≤ daysBeforeMonthB b n := ih (by omega)
          _ ≤ daysBeforeMonthB b n + daysInMonthB b n := Nat.le_add_right _ _
          _ = daysBeforeMonthB b (n + 1) := rfl
      · have heq : m = n + 1 := by omega
        rw [heq]

/-- Years before `y` are monotone in `y`. -/
theorem daysBeforeYear_mono :
    ∀ {y y' : Nat}, y ≤ y' → daysBeforeYear y ≤ daysBeforeYear y' := by
  intro y y' h
  induction y' with
  | zero => rw [Nat.le_zero.mp h]
  | succ n ih =>
      rcases Nat.lt_or_ge y (n + 1) with hlt | hge
      · calc daysBeforeYear y ≤ daysBeforeYear n := ih (by omega)
          _ ≤ daysBeforeYear n + daysInYear n := Nat.le_add_right _ _
          _ = daysBeforeYear (n + 1) := rfl
      · have heq : y = n + 1 := by omega
        rw [heq]

/-- Every real month (1..12) has at least one day. -/
theorem daysInMonthB_pos (b : Bool) (m : Nat) (h1 : 1 ≤ m) (h12 : m ≤ 12) :
    1 ≤ daysInMonthB b m := by
  cases b <;> interval_cases m <;> decide

/-- The successor of a valid date is valid. -/
theorem nextDate_valid {d : PyDate} (h : ValidDate d) : ValidDate (nextDate d) := by
  obtain ⟨hy, hm1, hm12, hd1, hdM⟩ := h
  unfold nextDate
  split
  · rename_i hlt
    refine ⟨hy, hm1, hm12, ?_, ?_⟩
    · show 1 ≤ d.day + 1
      omega
    · show d.day + 1 ≤ daysInMonth d.year d.month
      omega
  · split
    · rename_i hm
      refine ⟨hy, ?_, ?_, ?_, ?_⟩
      · show 1 ≤ d.month + 1
        omega
      · show d.month + 1 ≤ 12
        omega
      · show 1 ≤ 1
        omega
      · show 1 ≤ daysInMonth d.year (d.month + 1)
        exact daysInMonthB_pos (isLeap d.year) (d.month + 1) (by omega) (by omega)
    · refine ⟨?_, ?_, ?_, ?_, ?_⟩
      · show 1 ≤ d.year + 1
        omega
      · show 1 ≤ 1
        omega
      · show (1 : Nat) ≤ 12
        omega
      · show 1 ≤ 1
        omega
      · show 1 ≤ daysInMonth (d.year + 1) 1
        exact daysInMonthB_pos (isLeap (d.year + 1)) 1 (by omega) (by omega)

/-- One `timedelta(days=1)` step advances the absolute day index by one. -/
theorem toOrd_nextDate {d : PyDate} (h : ValidDate d) :
    (nextDate d).toOrd = d.toOrd + 1 := by
  obtain ⟨hy, hm1, hm12, hd1, hdM⟩ := h
  unfold nextDate
  split
  · simp only [PyDate.toOrd]
    omega
  · rename_i hnd
    have hde : d.day = daysInMonth d.year d.month := by omega
    split
    · rename_i hm
      simp only [PyDate.toOrd]
      have hstep : daysBeforeMonth d.year (d.month + 1) =
          daysBeforeMonth d.year d.month + daysInMonth d.year d.month := rfl
      omega
    · rename_i hm
      have hm' : d.month = 12 := by omega
      simp only [PyDate.toOrd]
      have hstep : daysBeforeYear (d.year + 1) =
          daysBeforeYear d.year + daysInYear d.year := rfl
      have h13 : daysBeforeMonth d.year 13 =
          daysBeforeMonth d.year 12 + daysInMonth d.year 12 := rfl
      have h13v : daysBeforeMonth d.year 13 = daysInYear d.year := by
        unfold daysBeforeMonth daysInYear
        rw [daysBeforeMonthB_thirteen]
      have h1 : daysBeforeMonth (d.year + 1) 1 = 0 := rfl
      rw [hm'] at hde ⊢
      omega

/-- A valid date position inside its year is below the year's length. -/
theorem toOrd_in_year {d : PyDate} (h : ValidDate d) :
    daysBeforeMonth d.year d.month + d.day ≤ daysInYear d.year := by
  obtain ⟨hy, hm1, hm12, hd1, hdM⟩ := h
  have hstep : daysBeforeMonth d.year (d.month + 1) =
      daysBeforeMonth d.year d.month + daysInMonth d.year d.month := rfl
  have hmono : daysBeforeMonth d.year (d.month + 1) ≤ daysBeforeMonth d.year 13 :=
    daysBeforeMonthB_mono (isLeap d.year) (by omega)
  have h13v : daysBeforeMonth d.year 13 = daysInYear d.year := by
    unfold daysBeforeMonth daysInYear
    rw [daysBeforeMonthB_thirteen]
  omega

/-- Strictly earlier year means strictly smaller day index (valid dates). -/
theorem toOrd_lt_of_year_lt {a b : PyDate} (ha : ValidDate a) (hb : ValidDate b)
    (h : a.year < b.year) : a.toOrd < b.toOrd := by
  have hin := toOrd_in_year ha
  have hstep : daysBeforeYear (a.year + 1) =
      daysBeforeYear a.year + daysInYear a.year := rfl
  have hmono : daysBeforeYear (a.year + 1) ≤ daysBeforeYear b.year :=
    daysBeforeYear_mono (by omega)
  have hb1 : 1 ≤ b.day := hb.2.2.2.1
  simp only [PyDate.toOrd]
  omega

/-- Same year, strictly earlier month means strictly smaller day index. -/
theorem toOrd_lt_of_month_lt {a b : PyDate} (ha : ValidDate a) (hb : ValidDate b)
    (hy : a.year = b.year) (h : a.month < b.month) : a.toOrd < b.toOrd := by
  obtain ⟨_, ham1, ham12, had1, hadM⟩ := ha
  have hb1 : 1 ≤ b.day := hb.2.2.2.1
  have hstep : daysBeforeMonth a.year (a.month + 1) =
      daysBeforeMonth a.year a.month + daysInMonth a.year a.month := rfl
  have hmono : daysBeforeMonth a.year (a.month + 1) ≤
      daysBeforeMonth a.year b.month :=
    daysBeforeMonthB_mono (isLeap a.year) (by omega)
  simp only [PyDate.toOrd]
  rw [← hy]
  omega

/-- For valid dates, Python's date comparison agrees with the absolute day
index. -/
theorem dateLe_iff_toOrd_le {a b : PyDate} (ha : ValidDate a) (hb : ValidDate b) :
    dateLe a b ↔ a.toOrd ≤ b.toOrd := by
  constructor
  · intro h
    rcases h with h | ⟨hy, h | ⟨hm, hd⟩⟩
    · exact Nat.le_of_lt (toOrd_lt_of_year_lt ha hb h)
    · exact Nat.le_of_lt (toOrd_lt_of_month_lt ha hb hy h)
    · simp only [PyDate.toOrd]
      rw [hy, hm]
      omega
  · intro h
    rcases Nat.lt_trichotomy a.year b.year with hy | hy | hy
    · exact Or.inl hy
    · rcases Nat.lt_trichotomy a.month b.month with hm | hm | hm
      · exact Or.inr ⟨hy, Or.inl hm⟩
      · rcases le_or_lt a.day b.day with hd | hd
        · exact Or.inr ⟨hy, Or.inr ⟨hm, hd⟩⟩
        · exfalso
          have : b.toOrd < a.toOrd := by
            simp only [PyDate.toOrd]
            rw [hy, hm]
            omega
          omega
      · exfalso
        have := toOrd_lt_of_month_lt hb ha hy.symm hm
        omega
    · exfalso
      have := toOrd_lt_of_year_lt hb ha hy
      omega

/-- One unfolding of the generator loop. -/
theorem calendar_generator_unfold (s e : PyDate) :
    calendar_generator_datetime s e =
      if dateLe s e then
        strftime_d_B s :: calendar_generator_datetime (nextDate s) e
      else [] := by
  rw [calendar_generator_datetime.eq_def]
  split <;> rfl

/-- The generator yields one formatted value per day, in ascending date
order: with `n` further days between `start` and `end`, the yields are the
formattings of `start`, `start+1`, ..., `start+n`. -/
theorem calendar_generator_spec :
    ∀ (n : Nat) (s e : PyDate), ValidDate s → ValidDate e → dateLe s e →
      e.toOrd = s.toOrd + n →
      calendar_generator_datetime s e =
        (List.range (n + 1)).map (fun k => strftime_d_B (nextDate^[k] s)) := by
  intro n
  induction n with
  | zero =>
      intro s e hs he hle hord
      have hnext : ¬ dateLe (nextDate s) e := by
        intro hcon
        have h1 := (dateLe_iff_toOrd_le (nextDate_valid hs) he).mp hcon
        have h2 := toOrd_nextDate hs
        omega
      rw [calendar_generator_unfold, if_pos hle, calendar_generator_unfold,
        if_neg hnext]
      rfl
  | succ n ih =>
      intro s e hs he hle hord
      have hnle : dateLe (nextDate s) e := by
        apply (dateLe_iff_toOrd_le (nextDate_valid hs) he).mpr
        have h2 := toOrd_nextDate hs
        omega
      have hord' : e.toOrd = (nextDate s).toOrd + n := by
        rw [toOrd_nextDate hs]; omega
      have hrhs : (List.range (n + 1 + 1)).map
            (fun k => strftime_d_B (nextDate^[k] s)) =
          strftime_d_B s ::
            (List.range (n + 1)).map
              (fun k => strftime_d_B (nextDate^[k] (nextDate s))) := by
        rw [List.range_succ_eq_map]
        simp only [List.map_cons, List.map_map, Function.iterate_zero_apply]
        congr 1
      rw [hrhs, calendar_generator_unfold, if_pos hle,
        ih (nextDate s) e (nextDate_valid hs) he hnle hord']

/-- The value returned by `CalendarIterator.__next__` is exactly the
subscription result. -/
theorem cal_next_fst {α : Type} (s : CalendarIterator α) :
    (s.next).1 = pyGet s.collection s.position := by
  unfold CalendarIterator.next
  rcases pyGet s.collection s.position <;> rfl

/-- A `CalendarIterator.__next__` call that raises `StopIteration` leaves
the iterator state unchanged. -/
theorem cal_next_snd_of_none {α : Type} {s : CalendarIterator α}
    (h : (s.next).1 = none) : (s.next).2 = s := by
  unfold CalendarIterator.next at h ⊢
  rcases hg : pyGet s.collection s.position with _ | v
  · simp [hg]
  · simp [hg] at h

/-- The Python-normalised index of `i` into a sequence of length `L` lies in
`[0, L)`: either `0 ≤ i < L`, or `i < 0` and `0 ≤ i + L`. -/
def pyInRange (i : Int) (L : Nat) : Prop :=
  0 ≤ (if i < 0 then i + L else i) ∧ (if i < 0 then i + L else i) < L

instance (i : Int) (L : Nat) : Decidable (pyInRange i L) := by
  unfold pyInRange; exact inferInstance

/-- The subscription fails exactly when the normalised index is out of
range. -/
theorem pyGet_none_iff {α : Type} (l : List α) (i : Int) :
    pyGet l i = none ↔ ¬ pyInRange i l.length := by
  unfold pyGet pyInRange
  rcases lt_or_ge i 0 with h | h
  · rw [if_pos h]
    by_cases h2 : 0 ≤ i + l.length
    · rw [if_pos h2, List.get?_eq_none]
      omega
    · rw [if_neg h2]
      simp only [true_iff]
      omega
  · rw [if_neg (by omega : ¬ i < 0), List.get?_eq_none]
    omega

/-! ### The claims -/

/-- C1: for every container populated with `N` items via `append` in order
`i1..iN` (any `N ≥ 0`, items of any type), a forward cursor over it — via
`WordsCollection.__iter__` or as a `CalendarIterator` — returns on
successive `next()` calls exactly `i1, ..., iN` in order and then signals
`StopIteration` on that call and all later ones. -/
theorem C1_forward_traversal {α : Type} (items : List α) (k : Nat) :
    runNexts (wordsCollection_iter (List.foldl add_item [] items))
        (items.length + k) = items.map some ++ List.replicate k none ∧
    calRunNexts (CalendarIterator.init (List.foldl add_item [] items))
        (items.length + k) = items.map some ++ List.replicate k none := by
  have hfold : List.foldl add_item ([] : List α) items = items := by
    rw [foldl_add_item]
    rfl
  have hfwd := runNexts_forward items items 0 k rfl
  constructor
  · rw [hfold]
    simpa [wordsCollection_iter, AlphabeticalOrderIterator.init] using hfwd
  · rw [hfold]
    unfold CalendarIterator.init
    rw [calRunNexts_eq_runNexts]
    simpa using hfwd

/-- C2: a backward cursor (`get_reverse_iterator`) over a container
populated with `i1..iN` returns exactly `iN, ..., i1` and then signals
`StopIteration` forever; in particular over `"First", "Second", "Third"` it
yields `"Third", "Second", "First"`, then `StopIteration`. -/
theorem C2_backward_traversal {α : Type} (items : List α) (k : Nat) :
    runNexts (wordsCollection_get_reverse_iterator
        (List.foldl add_item [] items)) (items.length + k) =
      items.reverse.map some ++ List.replicate k none ∧
    runNexts (wordsCollection_get_reverse_iterator
        ["First", "Second", "Third"]) 4 =
      [some "Third", some "Second", some "First", none] := by
  have hfold : List.foldl add_item ([] : List α) items = items := by
    rw [foldl_add_item]
    rfl
  have hrev := runNexts_reverse items.length items k (Nat.le_refl _)
  constructor
  · rw [hfold]
    have hpos : -((items.length - items.length : Nat) : Int) - 1 = -1 := by
      omega
    rw [hpos, List.take_length] at hrev
    simpa [wordsCollection_get_reverse_iterator,
      AlphabeticalOrderIterator.init] using hrev
  · decide

/-- C3: once a cursor's `next()` has signaled `StopIteration`, every later
`next()` on that cursor signals `StopIteration` again and the state (hence
the position) never changes — for both iterator classes. -/
theorem C3_exhaustion_terminal {α : Type} (s : AlphabeticalOrderIterator α)
    (c : CalendarIterator α) (h : (s.next).1 = none)
    (hc : (c.next).1 = none) (k : Nat) :
    runNexts s k = List.replicate k none ∧ (s.next).2 = s ∧
    calRunNexts c k = List.replicate k none ∧ (c.next).2 = c := by
  have hpy : pyGet s.collection s.position = none := by
    rw [← next_fst]; exact h
  have hcpy : pyGet c.collection c.position = none := by
    rw [← cal_next_fst]; exact hc
  refine ⟨runNexts_exhausted hpy k, next_snd_of_none h, ?_, cal_next_snd_of_none hc⟩
  rw [show c = ⟨c.collection, c.position⟩ from rfl, calRunNexts_eq_runNexts]
  exact runNexts_exhausted hcpy k

/-- Witness for C3 at a concrete exhausted forward cursor and a concrete
exhausted calendar cursor. -/
theorem C3_witness :
    runNexts (⟨["a"], false, 1⟩ : AlphabeticalOrderIterator String) 3 =
      List.replicate 3 none ∧
    ((⟨["a"], false, 1⟩ : AlphabeticalOrderIterator String).next).2 =
      ⟨["a"], false, 1⟩ ∧
    calRunNexts (⟨["x", "y"], 5⟩ : CalendarIterator String) 3 =
      List.replicate 3 none ∧
    ((⟨["x", "y"], 5⟩ : CalendarIterator String).next).2 = ⟨["x", "y"], 5⟩ :=
  C3_exhaustion_terminal ⟨["a"], false, 1⟩ ⟨["x", "y"], 5⟩ (by decide)
    (by decide) _

/-- C4 counterexample: over a backing sequence of length 3, the backward
cursor's position is initialized to `-1`, not to the last index
`3 - 1 = 2` that the claim states. -/
theorem C4_counterexample :
    (wordsCollection_get_reverse_iterator
      (["a", "b", "c"] : List String)).position = -1 ∧
    (wordsCollection_get_reverse_iterator
      (["a", "b", "c"] : List String)).position ≠
      ((["a", "b", "c"] : List String).length : Int) - 1 := by
  decide

/-- C4 (amended): construction initializes the position to `0` for a
forward cursor (both iterator classes) and to `-1` for a backward cursor;
under Python's negative indexing, position `-1` addresses the last index
`length - 1` of any nonempty sequence. -/
theorem C4_initial_positions {α : Type} (l : List α) (x : α) (xs : List α) :
    (wordsCollection_iter l).position = 0 ∧
    (CalendarIterator.init l).position = 0 ∧
    (wordsCollection_get_reverse_iterator l).position = -1 ∧
    pyGet (x :: xs) (-1) = (x :: xs).get? ((x :: xs).length - 1) := by
  refine ⟨rfl, rfl, rfl, ?_⟩
  unfold pyGet
  rw [if_pos (by omega : (-1 : Int) < 0),
    if_pos (by simp : (0 : Int) ≤ -1 + ((x :: xs).length : Int))]
  congr 1
  simp

/-- C5 counterexample: the first `next()` of a backward cursor over a
3-element sequence performs its lookup with index `-1`, which lies outside
`[0, 3)`, yet the call returns an element instead of transitioning to the
exhausted state. -/
theorem C5_counterexample :
    ¬ (0 ≤ (wordsCollection_get_reverse_iterator
          (["a", "b", "c"] : List String)).position ∧
        (wordsCollection_get_reverse_iterator
          (["a", "b", "c"] : List String)).position <
          ((["a", "b", "c"] : List String).length : Int)) ∧
    ((wordsCollection_get_reverse_iterator
      (["a", "b", "c"] : List String)).next).1 = some "c" := by
  decide

/-- C5 (amended): a `next()` call signals `StopIteration` exactly when the
Python-normalised lookup index (the stored position, shifted by the length
when negative) falls outside `[0, length)`; the exhausted state is terminal
(the failing call leaves the state unchanged, so it self-loops); over a
nonempty sequence the initial call of either direction is still `Active`
(returns an element). -/
theorem C5_state_machine {α : Type} (s : AlphabeticalOrderIterator α)
    (x : α) (xs : List α) :
    ((s.next).1 = none ↔ ¬ pyInRange s.position s.collection.length) ∧
    ((s.next).1 = none → (s.next).2 = s) ∧
    ((wordsCollection_iter (x :: xs)).next).1 ≠ none ∧
    ((wordsCollection_get_reverse_iterator (x :: xs)).next).1 ≠ none := by
  refine ⟨?_, fun h => next_snd_of_none h, ?_, ?_⟩
  · rw [next_fst]
    exact pyGet_none_iff s.collection s.position
  · intro hcon
    rw [next_fst] at hcon
    have hnr := (pyGet_none_iff _ _).mp hcon
    apply hnr
    unfold pyInRange wordsCollection_iter AlphabeticalOrderIterator.init
    simp
  · intro hcon
    rw [next_fst] at hcon
    have hnr := (pyGet_none_iff _ _).mp hcon
    apply hnr
    unfold pyInRange wordsCollection_get_reverse_iterator
      AlphabeticalOrderIterator.init
    simp

/-- Witness for C5 at a concrete exhausted reverse cursor. -/
theorem C5_witness :
    ((⟨["b", "c"], true, -3⟩ : AlphabeticalOrderIterator String).next).2 =
      ⟨["b", "c"], true, -3⟩ :=
  (C5_state_machine (⟨["b", "c"], true, -3⟩ : AlphabeticalOrderIterator String)
    "b" ["c"]).2.1 (by decide)

/-- C6: two independently constructed cursors (one forward, one backward)
over the same container do not interfere: under any interleaving schedule
each cursor produces exactly the prefix of its isolated result sequence of
the length it was scheduled, and no `next()` call mutates the backing
sequence (or the direction flag) of any cursor. -/
theorem C6_independent_cursors {α : Type} (collection : List α)
    (sched : List Bool) :
    (runPair (wordsCollection_iter collection)
        (wordsCollection_get_reverse_iterator collection) sched).1 =
      runNexts (wordsCollection_iter collection) (sched.count true) ∧
    (runPair (wordsCollection_iter collection)
        (wordsCollection_get_reverse_iterator collection) sched).2 =
      runNexts (wordsCollection_get_reverse_iterator collection)
        (sched.count false) ∧
    (∀ s : AlphabeticalOrderIterator α,
      (s.next).2.collection = s.collection ∧ (s.next).2.reverse = s.reverse) :=
  ⟨(runPair_eq_runNexts sched _ _).1, (runPair_eq_runNexts sched _ _).2,
    fun s => next_preserves s⟩

/-- C10: a `next()` call that signals `StopIteration` leaves the whole
cursor state unchanged — position, direction flag and collection reference
— for both iterator classes; the position only advances on a call that
returns an element. -/
theorem C10_failed_next_preserves_state {α : Type}
    (s : AlphabeticalOrderIterator α) (c : CalendarIterator α)
    (h : (s.next).1 = none) (hc : (c.next).1 = none) :
    (s.next).2 = s ∧ (s.next).2.position = s.position ∧
    (s.next).2.reverse = s.reverse ∧
    (s.next).2.collection = s.collection ∧
    (c.next).2 = c ∧ (c.next).2.position = c.position := by
  have hs := next_snd_of_none h
  have hcs := cal_next_snd_of_none hc
  exact ⟨hs, by rw [hs], by rw [hs], by rw [hs], hcs, by rw [hcs]⟩

/-- Witness for C10 at a concrete exhausted cursor of each class. -/
theorem C10_witness :
    ((⟨[], false, 0⟩ : AlphabeticalOrderIterator String).next).2 =
      ⟨[], false, 0⟩ ∧
    ((⟨["1 января"], 7⟩ : CalendarIterator String).next).2 =
      ⟨["1 января"], 7⟩ :=
  have h := C10_failed_next_preserves_state
    (⟨[], false, 0⟩ : AlphabeticalOrderIterator String)
    (⟨["1 января"], 7⟩ : CalendarIterator String) (by decide) (by decide)
  ⟨h.1, h.2.2.2.2.1⟩

/-- C7: for valid dates `start ≤ end`, the generator yields exactly
`(end - start) + 1` values (measured in days), the `%d %B` formattings of
`start`, `start + 1 day`, ..., `end` in ascending order, and then signals
`StopIteration`; for `start > end` it signals `StopIteration` without
yielding anything. -/
theorem C7_calendar_generator (s e : PyDate) (hs : ValidDate s)
    (he : ValidDate e) :
    (dateLe s e →
      calendar_generator_datetime s e =
        (List.range (e.toOrd - s.toOrd + 1)).map
          (fun k => strftime_d_B (nextDate^[k] s)) ∧
      (calendar_generator_datetime s e).length = e.toOrd - s.toOrd + 1) ∧
    (¬ dateLe s e → calendar_generator_datetime s e = []) := by
  constructor
  · intro hle
    have hord : s.toOrd ≤ e.toOrd := (dateLe_iff_toOrd_le hs he).mp hle
    have heq := calendar_generator_spec (e.toOrd - s.toOrd) s e hs he hle
      (by omega)
    exact ⟨heq, by rw [heq]; simp⟩
  · intro hnle
    rw [calendar_generator_unfold, if_neg hnle]

/-- Witness for C7: September 1st to September 3rd (three yielded days),
and the inverted boundaries (no yielded day). -/
theorem C7_witness :
    calendar_generator_datetime ⟨1, 9, 1⟩ ⟨1, 9, 3⟩ =
      ["01 September", "02 September", "03 September"] ∧
    calendar_generator_datetime ⟨1, 9, 3⟩ ⟨1, 9, 1⟩ = [] := by
  constructor
  · have h := ((C7_calendar_generator ⟨1, 9, 1⟩ ⟨1, 9, 3⟩ (by decide)
      (by decide)).1 (by decide)).1
    rw [h]
    rfl
  · exact (C7_calendar_generator ⟨1, 9, 3⟩ ⟨1, 9, 1⟩ (by decide)
      (by decide)).2 (by decide)

/-- C8: two `WordsCollection` instances constructed without an explicit
argument share one and the same backing list object (the mutable default
argument, allocated once): after appending an item through `c1`, a cursor
obtained from `c2` yields that item. -/
theorem C8_shared_default_argument {α : Type} (st0 : Store α) (item : α) :
    wordsCollection_init_default (st0.alloc []).1 =
      wordsCollection_init_default (st0.alloc []).1 ∧
    ((wordsCollection_init_default (st0.alloc []).1).add_item
        (st0.alloc []).2 item).read
      (wordsCollection_init_default (st0.alloc []).1).ref = [item] ∧
    runNexts (wordsCollection_iter
      (((wordsCollection_init_default (st0.alloc []).1).add_item
          (st0.alloc []).2 item).read
        (wordsCollection_init_default (st0.alloc []).1).ref)) 1 =
      [some item] := by
  have hread : ((wordsCollection_init_default (st0.alloc []).1).add_item
      (st0.alloc []).2 item).read
      (wordsCollection_init_default (st0.alloc []).1).ref = [item] := by
    unfold wordsCollection_init_default WordsCollectionRef.add_item
      Store.alloc Store.read Store.write
    simp
  refine ⟨rfl, hread, ?_⟩
  rw [hread]
  unfold runNexts runNexts wordsCollection_iter AlphabeticalOrderIterator.init
    AlphabeticalOrderIterator.next pyGet
  simp

/-- C9: `append` always succeeds, increases the size by exactly one, puts
the item at the end, preserves every previously stored element at its
index (no reordering, no deduplication), keeps parallel positions readable
unchanged, and leaves every other list object in the store untouched. -/
theorem C9_append_invariants {α : Type} (l : List α) (x : α) (i : Nat)
    (hi : i < l.length) (st : Store α) (c : WordsCollectionRef) (r : Nat)
    (hr : r ≠ c.ref) (p : Int) (hp : 0 ≤ p) (hpl : p < l.length) :
    (add_item l x).length = l.length + 1 ∧
    (add_item l x).get? i = l.get? i ∧
    (add_item l x).get? l.length = some x ∧
    pyGet (add_item l x) p = pyGet l p ∧
    (c.add_item st x).read r = st.read r := by
  refine ⟨by simp [add_item], ?_, ?_, ?_, ?_⟩
  · exact List.get?_append hi
  · unfold add_item
    rw [List.get?_append_right (Nat.le_refl _)]
    simp
  · unfold pyGet
    rw [if_neg (by omega), if_neg (by omega)]
    have : p.toNat < l.length := by omega
    exact List.get?_append this
  · unfold WordsCollectionRef.add_item Store.read Store.write
    simp only []
    rw [if_neg hr]

/-- Witness for C9 on a concrete list, store and positions. -/
theorem C9_witness :
    (add_item ["a", "b"] "c").length = (["a", "b"] : List String).length + 1 ∧
    (add_item ["a", "b"] "c").get? 1 = (["a", "b"] : List String).get? 1 ∧
    (add_item ["a", "b"] "c").get? (["a", "b"] : List String).length =
      some "c" ∧
    pyGet (add_item ["a", "b"] "c") 0 = pyGet ["a", "b"] 0 ∧
    (WordsCollectionRef.add_item ⟨0, fun _ => []⟩ ⟨5⟩ "c").read 3 =
      (⟨0, fun _ => []⟩ : Store String).read 3 :=
  C9_append_invariants ["a", "b"] "c" 1 (by decide) ⟨0, fun _ => []⟩ ⟨5⟩ 3
    (by decide) 0 (by decide) (by decide)
